import Mathlib

/-!
Shallow embedding of the similarity-scoring core of `main.py`
(repository `3123004805_Paper_Test`): text normalization, bilingual
tokenization (`preprocess_text`), frequency-vector construction
(`calculate_word_frequency`), and the cosine / Jaccard similarity scorers
(`compute_cosine_similarity`, `compute_jaccard_similarity`), together with
the pipeline composition performed by `main`.

Modelling conventions: Python strings become `String` / `List Char`
(codepoint comparisons via `Char.toNat`); Python dicts with unique keys
become association lists `List (String × Nat)` with `getFreq` as
`dict.get(w, 0)`; Python `set` unions become `Finset String`; Python float
arithmetic (including `math.sqrt`) is modelled over `ℝ`.
-/

namespace PaperTest

/-- Codepoints of Python whitespace, the character class matched by the
regex `\s` of `CHINESE_REMOVAL_PATTERN` (line 21) and stripped by
`str.strip()` (line 87); both use the same Unicode whitespace set. -/
def SPACE_CODES : List Nat :=
  [9, 10, 11, 12, 13, 28, 29, 30, 31, 32, 133, 160, 5760,
   8192, 8193, 8194, 8195, 8196, 8197, 8198, 8199, 8200, 8201, 8202,
   8232, 8233, 8239, 8287, 12288]

/-- Character test for Python whitespace. -/
def isSpaceChar (c : Char) : Bool := decide (c.toNat ∈ SPACE_CODES)

/-- Codepoints of the deletion table `TRANSLATOR` built from `PUNCTUATION`
(lines 36–37): `string.punctuation` (ASCII 33–47, 58–64, 91–96, 123–126)
followed by the CJK punctuation marks of the literal
(U+FF0C U+3002 U+3001 U+FF1B U+FF1A U+FF1F U+FF01 two ASCII apostrophes and
two ASCII double quotes already in the ASCII block, U+FF08 U+FF09 U+3010
U+3011 U+300A U+300B U+3008 U+3009 U+300C U+300D U+300E U+300F U+3014
U+3015 U+2026 U+2014 U+00B7) and newline, tab, carriage return, space. -/
def PUNCT_CODES : List Nat :=
  [33, 34, 35, 36, 37, 38, 39, 40, 41, 42, 43, 44, 45, 46, 47,
   58, 59, 60, 61, 62, 63, 64, 91, 92, 93, 94, 95, 96, 123, 124, 125, 126,
   65292, 12290, 12289, 65307, 65306, 65311, 65281, 65288, 65289,
   12304, 12305, 12298, 12299, 12296, 12297, 12300, 12301, 12302, 12303,
   12308, 12309, 8230, 8212, 183, 10, 9, 13, 32]

/-- Character test for membership in the `TRANSLATOR` deletion set. -/
def isPunct (c : Char) : Bool := decide (c.toNat ∈ PUNCT_CODES)

/-- ASCII lowercasing as applied by `str.lower()` (line 91); non-ASCII case
mappings are irrelevant to tokenization because `ENGLISH_PATTERN` matches
only `[a-zA-Z]` and CJK ideographs are caseless. -/
def lowerChar (c : Char) : Char :=
  if 65 ≤ c.toNat ∧ c.toNat ≤ 90 then Char.ofNat (c.toNat + 32) else c

/-- Character class `[a-zA-Z]` of `ENGLISH_PATTERN` and
`CHINESE_REMOVAL_PATTERN` (lines 20–21). -/
def isLatinLetter (c : Char) : Bool :=
  decide ((97 ≤ c.toNat ∧ c.toNat ≤ 122) ∨ (65 ≤ c.toNat ∧ c.toNat ≤ 90))

/-- CJK Unified Ideographs range test `'一' <= c <= '鿿'`
(lines 110–111). -/
def isCJK (c : Char) : Bool :=
  decide (19968 ≤ c.toNat ∧ c.toNat ≤ 40959)

/-- The stopword set `STOPWORDS` (lines 24–33), as a list. -/
def STOPWORDS : List String :=
  ["的", "了", "在", "是", "我", "有", "和", "就", "不", "人", "都", "一",
   "一个", "上", "也", "到", "说", "要", "去", "你", "会", "着", "没有",
   "看", "好", "自己", "这", "那", "他", "她", "它", "我们", "你们",
   "他们", "她们", "它们", "这个", "那个", "什么", "怎么", "为什么",
   "但是", "然后", "所以", "因为", "如果", "虽然", "可是", "不过",
   "the", "a", "an", "and", "or", "but", "in", "on", "at", "to",
   "for", "of", "with", "by", "is", "are", "was", "were", "be",
   "been", "being", "have", "has", "had", "do", "does", "did"]

/-- Maximal runs of characters satisfying `p`, left to right, with `acc`
the current run accumulated in reverse; this is the behaviour of
`re.findall` for the pattern `[a-zA-Z]+` when `p` tests `[a-zA-Z]`. -/
def runsAux (p : Char → Bool) : List Char → List Char → List (List Char)
  | [], acc => if acc.isEmpty then [] else [acc.reverse]
  | c :: cs, acc =>
    if p c then runsAux p cs (c :: acc)
    else if acc.isEmpty then runsAux p cs []
    else acc.reverse :: runsAux p cs []

/-- The matches of `ENGLISH_PATTERN.findall` (line 97): maximal runs of
Latin letters. -/
def latinRuns (l : List Char) : List (List Char) := runsAux isLatinLetter l []

/-- The Chinese bigram pass (lines 107–113): for every adjacent character
pair of the CJK-only text — `l.zip l.tail` is exactly the pairs
`(chinese_text[i], chinese_text[i+1])` for `i < len - 1` — keep the pair
when both characters are CJK ideographs and the two-character string is
not a stopword. -/
def bigrams (l : List Char) : List String :=
  ((l.zip l.tail).filter
      (fun p => isCJK p.1 && isCJK p.2 &&
        decide (String.mk [p.1, p.2] ∉ STOPWORDS))).map
    (fun p => String.mk [p.1, p.2])

/-- Tokenizer `preprocess_text` (lines 75–118): empty-after-strip guard,
punctuation deletion and lowercasing, English words (length ≥ 2, not a
stopword), then Chinese bigrams of the text with Latin letters and
whitespace removed; English tokens precede bigrams. -/
def preprocess_text (text : String) : List String :=
  if text.data.all isSpaceChar then []
  else
    let cleaned : List Char := (text.data.filter (fun c => !isPunct c)).map lowerChar
    let english_words : List String :=
      ((latinRuns cleaned).filter
          (fun w => decide (2 ≤ w.length) && decide (String.mk w ∉ STOPWORDS))).map
        (fun w => String.mk w)
    let chinese_text : List Char :=
      cleaned.filter (fun c => !(isLatinLetter c || isSpaceChar c))
    english_words ++ bigrams chinese_text

/-- One step of the counting loop of `calculate_word_frequency`
(lines 131–133): increment the entry for `w`, creating it at 1 when
absent (a `defaultdict(int)` starts absent keys at 0). -/
def updateFreq (m : List (String × Nat)) (w : String) : List (String × Nat) :=
  if m.any (fun p => decide (p.1 = w)) then
    m.map (fun p => if p.1 = w then (p.1, p.2 + 1) else p)
  else m ++ [(w, 1)]

/-- Frequency-vector construction `calculate_word_frequency`
(lines 121–134). -/
def calculate_word_frequency (words : List String) : List (String × Nat) :=
  words.foldl updateFreq []

/-- Dictionary lookup `freq.get(word, 0)` (line 161). -/
def getFreq (m : List (String × Nat)) (w : String) : Nat :=
  match m.find? (fun p => decide (p.1 = w)) with
  | some p => p.2
  | none => 0

/-- Key list `freq.keys()` of an association-list dictionary. -/
def keys (m : List (String × Nat)) : List String := m.map Prod.fst

/-- Key-set union `set(freq1.keys()).union(set(freq2.keys()))`
(line 153). -/
def all_words (freq1 freq2 : List (String × Nat)) : Finset String :=
  (keys freq1).toFinset ∪ (keys freq2).toFinset

/-- Dot product over the key union (lines 159–161). -/
def dot_product (freq1 freq2 : List (String × Nat)) : Nat :=
  Finset.sum (all_words freq1 freq2) (fun w => getFreq freq1 w * getFreq freq2 w)

/-- Sum of squared counts `sum(count ** 2 for count in freq.values())`
(lines 164–165). -/
def sumSq (m : List (String × Nat)) : Nat :=
  (m.map (fun p => p.2 ^ 2)).sum

/-- Vector magnitude `math.sqrt(sum(count ** 2 ...))` (lines 164–165). -/
noncomputable def magnitude (m : List (String × Nat)) : ℝ :=
  Real.sqrt (sumSq m)

open Classical in
/-- Cosine scorer `compute_cosine_similarity` (lines 137–175): empty-dict
guard, empty-union guard, dot product over the key union, zero-magnitude
guard, quotient clamped into [0, 1]. -/
noncomputable def compute_cosine_similarity
    (freq1 freq2 : List (String × Nat)) : ℝ :=
  if freq1 = [] ∨ freq2 = [] then 0
  else if all_words freq1 freq2 = ∅ then 0
  else if magnitude freq1 = 0 ∨ magnitude freq2 = 0 then 0
  else max 0 (min 1 ((dot_product freq1 freq2 : ℝ) / (magnitude freq1 * magnitude freq2)))

/-- Jaccard scorer `compute_jaccard_similarity` (lines 178–201): 1.0 when
both key sets are empty, otherwise intersection size over union size with
a zero-union guard. -/
noncomputable def compute_jaccard_similarity
    (freq1 freq2 : List (String × Nat)) : ℝ :=
  let set1 := (keys freq1).toFinset
  let set2 := (keys freq2).toFinset
  if set1 = ∅ ∧ set2 = ∅ then 1
  else if (set1 ∪ set2).card = 0 then 0
  else ((set1 ∩ set2).card : ℝ) / ((set1 ∪ set2).card : ℝ)

/-- The composition performed by `main` (lines 291–299): tokenize both
texts, build both frequency vectors, score with cosine similarity. -/
noncomputable def pipeline_score (original_text plagiarized_text : String) : ℝ :=
  compute_cosine_similarity
    (calculate_word_frequency (preprocess_text original_text))
    (calculate_word_frequency (preprocess_text plagiarized_text))

/-- The mixed-script scenario input of the spec and of test 13. -/
def mixedExample : String := "Python是一种编程语言，very popular。"

/-- The end-to-end scenario A input of the spec and of test case 1. -/
def sentenceA : String := "今天是星期天，天气晴，今天晚上我要去看电影。"

/-- Claim C2: if either frequency mapping is empty, the cosine scorer
returns exactly 0, and whenever either vector magnitude is zero the
guarded division returns 0 instead of propagating a fault. -/
theorem cosine_empty_and_zero_magnitude (freq1 freq2 : List (String × Nat)) :
    (freq1 = [] → compute_cosine_similarity freq1 freq2 = 0) ∧
    (freq2 = [] → compute_cosine_similarity freq1 freq2 = 0) ∧
    ((magnitude freq1 = 0 ∨ magnitude freq2 = 0) →
      compute_cosine_similarity freq1 freq2 = 0) := by
  refine ⟨fun h => by simp [compute_cosine_similarity, h],
          fun h => by simp [compute_cosine_similarity, h],
          fun h => ?_⟩
  by_cases h1 : freq1 = [] ∨ freq2 = []
  · simp [compute_cosine_similarity, h1]
  · by_cases h2 : all_words freq1 freq2 = ∅
    · simp [compute_cosine_similarity, h1, h2]
    · simp [compute_cosine_similarity, h1, h2, h]

/-- Witness for C2 at a concrete empty first mapping. -/
theorem cosine_empty_witness : compute_cosine_similarity [] [("ab", 1)] = 0 :=
  (cosine_empty_and_zero_magnitude [] [("ab", 1)]).1 rfl

/-- Claim C3: the cosine score is always within [0, 1]; every branch of the
scorer returns 0 or a value clamped by `max 0 (min 1 _)`. -/
theorem cosine_bounded (freq1 freq2 : List (String × Nat)) :
    0 ≤ compute_cosine_similarity freq1 freq2 ∧
      compute_cosine_similarity freq1 freq2 ≤ 1 := by
  rw [compute_cosine_similarity]
  split_ifs
  · exact ⟨le_refl 0, zero_le_one⟩
  · exact ⟨le_refl 0, zero_le_one⟩
  · exact ⟨le_refl 0, zero_le_one⟩
  · exact ⟨le_max_left 0 _, max_le zero_le_one (min_le_left 1 _)⟩

/-- Counterexample for C8 as stated: the Jaccard scorer applied to two
empty mappings returns 1, not an empty or zero result. -/
theorem jaccard_empty_cx :
    compute_jaccard_similarity [] [] = 1 ∧ (1 : ℝ) ≠ 0 :=
  ⟨by simp [compute_jaccard_similarity, keys], one_ne_zero⟩

/-- Claim C8 as amended: the core operations are total Lean functions, and
on empty input the tokenizer yields the empty token sequence, the
vectorizer yields the empty mapping, and the cosine scorer yields 0, while
the Jaccard scorer on two empty mappings yields its defined both-empty
edge-case value 1. -/
theorem totality_empty_results :
    preprocess_text "" = [] ∧
    calculate_word_frequency [] = [] ∧
    compute_cosine_similarity [] [] = 0 ∧
    compute_jaccard_similarity [] [] = 1 := by
  refine ⟨by decide, rfl, ?_, ?_⟩
  · simp [compute_cosine_similarity]
  · simp [compute_jaccard_similarity, keys]

/-- Claim C10: whenever both input texts tokenize to the empty sequence,
the end-to-end pipeline score is 0 (in particular for two identical
contentless documents, where self-similarity therefore fails). -/
theorem contentless_pipeline_zero (a b : String)
    (ha : preprocess_text a = []) (hb : preprocess_text b = []) :
    pipeline_score a b = 0 := by
  rw [pipeline_score, ha, hb]
  simp [calculate_word_frequency, compute_cosine_similarity]

/-- Witness for C10: two identical punctuation-only documents score 0. -/
theorem contentless_pipeline_witness :
    pipeline_score "，。" "，。" = 0 ∧ (0 : ℝ) ≠ 1 :=
  ⟨contentless_pipeline_zero "，。" "，。" (by decide) (by decide), zero_ne_one⟩

/-- Claim C4: the cosine scorer is symmetric in its two arguments; the key
union, the dot product, the pair of magnitudes and every guard are
invariant under swapping the mappings. -/
theorem cosine_symm (freq1 freq2 : List (String × Nat)) :
    compute_cosine_similarity freq1 freq2 = compute_cosine_similarity freq2 freq1 := by
  have hw : all_words freq1 freq2 = all_words freq2 freq1 := by
    rw [all_words, all_words, Finset.union_comm]
  have hd : dot_product freq1 freq2 = dot_product freq2 freq1 := by
    rw [dot_product, dot_product, hw]
    exact Finset.sum_congr rfl (fun w _ => Nat.mul_comm _ _)
  rw [compute_cosine_similarity, compute_cosine_similarity]
  exact if_congr or_comm rfl
    (if_congr (by rw [hw]) rfl
      (if_congr or_comm rfl (by rw [hd, mul_comm (magnitude freq2)])))

/-- Lookup in an association list with duplicate-free keys returns the
stored value of any of its entries. -/
theorem getFreq_eq_of_mem {f : List (String × Nat)} (hnd : (keys f).Nodup)
    {p : String × Nat} (hp : p ∈ f) : getFreq f p.1 = p.2 := by
  induction f with
  | nil => cases hp
  | cons q t ih =>
    rw [keys, List.map_cons, List.nodup_cons] at hnd
    rcases List.mem_cons.mp hp with rfl | hmem
    · simp [getFreq, List.find?_cons]
    · have hne : ¬(q.1 = p.1) := fun h => hnd.1 (h ▸ List.mem_map_of_mem Prod.fst hmem)
      have := ih hnd.2 hmem
      simpa [getFreq, List.find?_cons, hne] using this

/-- With duplicate-free keys the dot product of a mapping with itself is
its sum of squared counts. -/
theorem dot_self {f : List (String × Nat)} (hnd : (keys f).Nodup) :
    dot_product f f = sumSq f := by
  rw [dot_product, all_words, Finset.union_self, List.sum_toFinset _ hnd,
    keys, List.map_map, sumSq]
  refine congrArg List.sum (List.map_congr_left fun p hp => ?_)
  have := getFreq_eq_of_mem hnd hp
  simp [Function.comp, this, pow_two]

/-- A nonempty mapping with positive counts has a positive sum of
squares. -/
theorem sumSq_pos {f : List (String × Nat)} (hne : f ≠ [])
    (hpos : ∀ p ∈ f, 0 < p.2) : 0 < sumSq f := by
  cases f with
  | nil => exact absurd rfl hne
  | cons p t =>
    have hp := hpos p (List.mem_cons_self p t)
    rw [sumSq, List.map_cons, List.sum_cons]
    exact Nat.lt_of_lt_of_le (pow_pos hp 2) (Nat.le_add_right _ _)

/-- Cosine of a valid nonempty frequency mapping with itself is exactly 1
in the real-valued model. -/
theorem cosine_self_eq_one (f : List (String × Nat)) (hne : f ≠ [])
    (hnd : (keys f).Nodup) (hpos : ∀ p ∈ f, 0 < p.2) :
    compute_cosine_similarity f f = 1 := by
  have hsq : 0 < sumSq f := sumSq_pos hne hpos
  have hsqR : (0 : ℝ) < (sumSq f : ℝ) := by exact_mod_cast hsq
  have hmag : magnitude f ≠ 0 := by
    rw [magnitude]
    exact Real.sqrt_ne_zero'.mpr hsqR
  have hkeys : keys f ≠ [] := by
    cases f with
    | nil => exact absurd rfl hne
    | cons p t => simp [keys]
  rw [compute_cosine_similarity, if_neg (by simp [hne]),
    if_neg (by simp [all_words, Finset.union_self, List.toFinset_eq_empty_iff, hkeys]),
    if_neg (by simp [hmag]), dot_self hnd, magnitude,
    Real.mul_self_sqrt (by positivity), div_self (ne_of_gt hsqR)]
  norm_num

/-- Claim C5: cosine of any valid nonempty frequency mapping (unique keys,
positive counts, as produced by the vectorizer) with itself is 1, and the
end-to-end pipeline score of scenario A's sentence against an identical
copy is 1 (the written percentage 100.00). -/
theorem cosine_self_one_and_scenario_a :
    (∀ f : List (String × Nat), f ≠ [] → (keys f).Nodup →
      (∀ p ∈ f, 0 < p.2) → compute_cosine_similarity f f = 1) ∧
    pipeline_score sentenceA sentenceA = 1 := by
  refine ⟨cosine_self_eq_one, ?_⟩
  rw [pipeline_score]
  exact cosine_self_eq_one _ (by decide) (by decide) (by decide)

/-- Witness for C5 at a concrete one-entry mapping. -/
theorem cosine_self_witness : compute_cosine_similarity [("ab", 2)] [("ab", 2)] = 1 :=
  cosine_self_one_and_scenario_a.1 [("ab", 2)] (by decide) (by decide) (by decide)

/-- Unfolding lemma: lookup at a cons cell. -/
theorem getFreq_cons (q : String × Nat) (m : List (String × Nat)) (v : String) :
    getFreq (q :: m) v = if q.1 = v then q.2 else getFreq m v := by
  by_cases h : q.1 = v
  · simp [getFreq, List.find?_cons, h]
  · simp [getFreq, List.find?_cons, h]

/-- Incrementing the entries keyed `w` leaves lookups at other keys
unchanged. -/
theorem getFreq_map_inc (m : List (String × Nat)) (w v : String) (hne : v ≠ w) :
    getFreq (m.map (fun p => if p.1 = w then (p.1, p.2 + 1) else p)) v
      = getFreq m v := by
  induction m with
  | nil => rfl
  | cons q t ih =>
    rw [List.map_cons]
    by_cases hq : q.1 = w
    · rw [if_pos hq, getFreq_cons, getFreq_cons, ih]
      have : ¬(q.1 = v) := fun h => hne (h ▸ hq ▸ rfl)
      simp [this]
    · rw [if_neg hq, getFreq_cons, getFreq_cons, ih]

/-- Lookup at a key absent from every entry returns the default 0. -/
theorem getFreq_eq_zero_of_absent (m : List (String × Nat)) (v : String) :
    (∀ p ∈ m, p.1 ≠ v) → getFreq m v = 0 := by
  induction m with
  | nil => intro _; rfl
  | cons q t ih =>
    intro habs
    rw [getFreq_cons, if_neg (habs q (List.mem_cons_self q t))]
    exact ih (fun p hp => habs p (List.mem_cons_of_mem q hp))

/-- Appending an entry does not change lookups at a different key. -/
theorem getFreq_append_ne (m : List (String × Nat)) (w v : String)
    (hne : v ≠ w) : getFreq (m ++ [(w, 1)]) v = getFreq m v := by
  induction m with
  | nil =>
    have : ¬(w = v) := fun hw => hne hw.symm
    simp [getFreq, List.find?, this]
  | cons q t ih =>
    rw [List.cons_append, getFreq_cons, getFreq_cons, ih]

/-- When a key is absent, the appended fresh entry is what its lookup
finds. -/
theorem getFreq_append_self (m : List (String × Nat)) (v : String)
    (habs : ∀ p ∈ m, p.1 ≠ v) : getFreq (m ++ [(v, 1)]) v = 1 := by
  induction m with
  | nil => simp [getFreq, List.find?]
  | cons q t ih =>
    rw [List.cons_append, getFreq_cons, if_neg (habs q (List.mem_cons_self q t))]
    exact ih (fun p hp => habs p (List.mem_cons_of_mem q hp))

/-- Incrementing the entries keyed `v` bumps the lookup at `v` by one when
some entry has key `v`. -/
theorem getFreq_map_inc_self (m : List (String × Nat)) (v : String) :
    (∃ p ∈ m, p.1 = v) →
      getFreq (m.map (fun p => if p.1 = v then (p.1, p.2 + 1) else p)) v
        = getFreq m v + 1 := by
  induction m with
  | nil => rintro ⟨p, hp, _⟩; cases hp
  | cons q t ih =>
    rintro ⟨p, hp, hpv⟩
    rw [List.map_cons]
    by_cases hq : q.1 = v
    · simp [hq, getFreq_cons]
    · rw [if_neg hq, getFreq_cons, getFreq_cons, if_neg hq, if_neg hq]
      apply ih
      rcases List.mem_cons.mp hp with rfl | hmem
      · exact absurd hpv hq
      · exact ⟨p, hmem, hpv⟩

/-- One counting step: `updateFreq` increments exactly the lookup at the
updated key. -/
theorem getFreq_updateFreq (m : List (String × Nat)) (w v : String) :
    getFreq (updateFreq m w) v =
      if v = w then getFreq m v + 1 else getFreq m v := by
  rw [updateFreq]
  split_ifs with hc hv hv
  · subst hv
    rw [List.any_eq_true] at hc
    obtain ⟨p, hp, hpw⟩ := hc
    rw [decide_eq_true_eq] at hpw
    exact getFreq_map_inc_self m v ⟨p, hp, hpw⟩
  · rw [getFreq_map_inc m w v hv]
  · subst hv
    have habs : ∀ p ∈ m, p.1 ≠ v := by
      intro p hp hpv
      exact hc (List.any_eq_true.mpr ⟨p, hp, decide_eq_true hpv⟩)
    rw [getFreq_append_self m v habs, getFreq_eq_zero_of_absent m v habs]
  · exact getFreq_append_ne m w v hv

/-- The counting fold computes, at every key, the accumulator lookup plus
the number of occurrences in the word list. -/
theorem getFreq_foldl (ws : List String) :
    ∀ (acc : List (String × Nat)) (v : String),
      getFreq (ws.foldl updateFreq acc) v = getFreq acc v + ws.count v := by
  induction ws with
  | nil => intro acc v; simp
  | cons w ws ih =>
    intro acc v
    rw [List.foldl_cons, ih, getFreq_updateFreq, List.count_cons]
    by_cases h : v = w
    · subst h
      simp
      omega
    · have hbe : (w == v) = false := beq_eq_false_iff_ne.mpr (fun hw => h hw.symm)
      simp [h, hbe]

/-- `updateFreq` preserves the key list when the key is present. -/
theorem keys_map_inc (m : List (String × Nat)) (w : String) :
    keys (m.map (fun p => if p.1 = w then (p.1, p.2 + 1) else p)) = keys m := by
  rw [keys, keys, List.map_map]
  refine List.map_congr_left fun p _ => ?_
  by_cases h : p.1 = w <;> simp [Function.comp, h]

/-- `updateFreq` preserves duplicate-freeness of the key list. -/
theorem updateFreq_nodup {m : List (String × Nat)} {w : String}
    (h : (keys m).Nodup) : (keys (updateFreq m w)).Nodup := by
  rw [updateFreq]
  split_ifs with hc
  · rw [keys_map_inc]; exact h
  · have hw : w ∉ keys m := by
      intro hmem
      obtain ⟨p, hp, hpw⟩ := List.mem_map.mp hmem
      exact hc (List.any_eq_true.mpr ⟨p, hp, decide_eq_true hpw⟩)
    rw [keys, List.map_append, List.map_cons, List.map_nil, List.nodup_append]
    refine ⟨h, List.nodup_singleton _, ?_⟩
    intro a ha hamem
    rw [List.mem_singleton] at hamem
    rw [hamem] at ha
    exact hw ha

/-- `updateFreq` preserves positivity of all stored counts. -/
theorem updateFreq_pos {m : List (String × Nat)} {w : String}
    (h : ∀ p ∈ m, 0 < p.2) : ∀ p ∈ updateFreq m w, 0 < p.2 := by
  rw [updateFreq]
  split_ifs with hc
  · intro p hp
    obtain ⟨q, hq, rfl⟩ := List.mem_map.mp hp
    by_cases hqw : q.1 = w
    · simp only [hqw, if_true, if_pos hqw]
      exact Nat.succ_pos _
    · simpa [hqw] using h q hq
  · intro p hp
    rcases List.mem_append.mp hp with hm | hs
    · exact h p hm
    · rcases List.mem_singleton.mp hs with rfl
      exact Nat.one_pos

/-- Keys produced by `updateFreq` come from the old keys or are the
updated key. -/
theorem updateFreq_keys {m : List (String × Nat)} {w v : String}
    (hv : v ∈ keys (updateFreq m w)) : v ∈ keys m ∨ v = w := by
  rw [updateFreq] at hv
  split_ifs at hv with hc
  · rw [keys_map_inc] at hv; exact Or.inl hv
  · rw [keys, List.map_append] at hv
    rcases List.mem_append.mp hv with hm | hs
    · exact Or.inl hm
    · exact Or.inr (List.mem_singleton.mp hs)

/-- The counting fold preserves the dictionary invariants: duplicate-free
keys and positive counts. -/
theorem foldl_goodFreq (ws : List String) :
    ∀ acc, (keys acc).Nodup → (∀ p ∈ acc, 0 < p.2) →
      (keys (ws.foldl updateFreq acc)).Nodup ∧
        ∀ p ∈ ws.foldl updateFreq acc, 0 < p.2 := by
  induction ws with
  | nil => intro acc h1 h2; exact ⟨h1, h2⟩
  | cons w ws ih =>
    intro acc h1 h2
    rw [List.foldl_cons]
    exact ih _ (updateFreq_nodup h1) (updateFreq_pos h2)

/-- Every key of the counting fold's output occurs in the accumulator's
keys or in the word list. -/
theorem foldl_keys (ws : List String) :
    ∀ acc (p : String × Nat), p ∈ ws.foldl updateFreq acc →
      p.1 ∈ keys acc ∨ p.1 ∈ ws := by
  induction ws with
  | nil => intro acc p hp; exact Or.inl (List.mem_map_of_mem Prod.fst hp)
  | cons w ws ih =>
    intro acc p hp
    rw [List.foldl_cons] at hp
    rcases ih (updateFreq acc w) p hp with h | h
    · rcases updateFreq_keys h with h' | h'
      · exact Or.inl h'
      · exact Or.inr (h' ▸ List.mem_cons_self w ws)
    · exact Or.inr (List.mem_cons_of_mem w h)

/-- Claim C9: the vectorizer maps every token to exactly its occurrence
count, stores no entry for absent tokens, has duplicate-free keys and
positive counts, and maps the empty list to the empty mapping. -/
theorem word_frequency_spec (ts : List String) :
    (keys (calculate_word_frequency ts)).Nodup ∧
    (∀ t : String, getFreq (calculate_word_frequency ts) t = ts.count t) ∧
    (∀ p ∈ calculate_word_frequency ts, p.1 ∈ ts ∧ 0 < p.2) ∧
    calculate_word_frequency [] = [] := by
  obtain ⟨h1, h2⟩ := foldl_goodFreq ts [] (by simp [keys]) (by simp)
  refine ⟨h1, fun t => ?_, fun p hp => ⟨?_, h2 p hp⟩, rfl⟩
  · rw [calculate_word_frequency, getFreq_foldl]
    simp [getFreq]
  · rcases foldl_keys ts [] p hp with h | h
    · simp [keys] at h
    · exact h

/-- Witness for C9 at a concrete token list with a repeat. -/
theorem word_frequency_witness :
    (("aa" : String) ∈ (["aa", "bb", "aa"] : List String) ∧ 0 < 2) ∧
    getFreq (calculate_word_frequency ["aa", "bb", "aa"]) "aa" = 2 := by
  constructor
  · exact (word_frequency_spec ["aa", "bb", "aa"]).2.2.1 ("aa", 2) (by decide)
  · rw [(word_frequency_spec ["aa", "bb", "aa"]).2.1 "aa"]
    decide

/-- Unfolding of the tokenizer on input that is not whitespace-only. -/
theorem preprocess_eq (text : String) (hs : text.data.all isSpaceChar = false) :
    preprocess_text text =
      ((latinRuns ((text.data.filter (fun c => !isPunct c)).map lowerChar)).filter
          (fun w => decide (2 ≤ w.length) && decide (String.mk w ∉ STOPWORDS))).map
        (fun w => String.mk w)
      ++ bigrams (((text.data.filter (fun c => !isPunct c)).map lowerChar).filter
          (fun c => !(isLatinLetter c || isSpaceChar c))) := by
  rw [preprocess_text, if_neg (by simp [hs])]

/-- Every token of the bigram pass is a two-character string of CJK
ideographs that is not a stopword. -/
theorem mem_bigrams {l : List Char} {t : String} (ht : t ∈ bigrams l) :
    ∃ c1 c2, t = String.mk [c1, c2] ∧ isCJK c1 = true ∧ isCJK c2 = true ∧
      t ∉ STOPWORDS := by
  rw [bigrams] at ht
  obtain ⟨p, hp, hpt⟩ := List.mem_map.mp ht
  obtain ⟨_, hcond⟩ := List.mem_filter.mp hp
  rw [Bool.and_eq_true, Bool.and_eq_true, decide_eq_true_eq] at hcond
  obtain ⟨⟨h1, h2⟩, h3⟩ := hcond
  rw [hpt] at h3
  exact ⟨p.1, p.2, hpt.symm, h1, h2, h3⟩

/-- Every character of every run produced by `runsAux` satisfies the run
predicate. -/
theorem runsAux_all (p : Char → Bool) (l : List Char) :
    ∀ acc, (∀ c ∈ acc, p c = true) →
      ∀ r ∈ runsAux p l acc, ∀ c ∈ r, p c = true := by
  induction l with
  | nil =>
    intro acc hacc r hr c hc
    rw [runsAux] at hr
    split_ifs at hr
    · cases hr
    · rw [List.mem_singleton] at hr
      subst hr
      exact hacc c (List.mem_reverse.mp hc)
  | cons a t ih =>
    intro acc hacc r hr
    rw [runsAux] at hr
    split_ifs at hr with hp hacc'
    · refine ih (a :: acc) (fun c hc => ?_) r hr
      rcases List.mem_cons.mp hc with rfl | hmem
      · exact hp
      · exact hacc c hmem
    · exact ih [] (by simp) r hr
    · rcases List.mem_cons.mp hr with rfl | hmem
      · intro c hc
        exact hacc c (List.mem_reverse.mp hc)
      · exact ih [] (by simp) r hmem

/-- A list without any matching character produces no runs. -/
theorem runsAux_eq_nil (p : Char → Bool) (l : List Char)
    (h : ∀ c ∈ l, p c = false) : runsAux p l [] = [] := by
  induction l with
  | nil => rfl
  | cons a t ih =>
    have ha : p a = false := h a (List.mem_cons_self a t)
    rw [runsAux, if_neg (by simp [ha]), if_pos (by rfl)]
    exact ih (fun c hc => h c (List.mem_cons_of_mem a hc))

/-- A CJK ideograph has a codepoint in U+4E00–U+9FFF. -/
theorem isCJK_range {c : Char} (h : isCJK c = true) :
    19968 ≤ c.toNat ∧ c.toNat ≤ 40959 := by
  rw [isCJK, decide_eq_true_eq] at h
  exact h

/-- All Python whitespace codepoints are below the CJK block. -/
theorem space_codes_lt : ∀ n ∈ SPACE_CODES, n < 19968 := by decide

/-- All deleted punctuation codepoints lie outside the CJK block. -/
theorem punct_codes_range : ∀ n ∈ PUNCT_CODES, n < 19968 ∨ 40959 < n := by decide

/-- CJK ideographs are not Python whitespace. -/
theorem isSpaceChar_of_cjk {c : Char} (h : isCJK c = true) :
    isSpaceChar c = false := by
  obtain ⟨h1, _⟩ := isCJK_range h
  rw [isSpaceChar, decide_eq_false_iff_not]
  intro hmem
  have := space_codes_lt _ hmem
  omega

/-- CJK ideographs are not in the punctuation deletion set. -/
theorem isPunct_of_cjk {c : Char} (h : isCJK c = true) : isPunct c = false := by
  obtain ⟨h1, h2⟩ := isCJK_range h
  rw [isPunct, decide_eq_false_iff_not]
  intro hmem
  rcases punct_codes_range _ hmem with hlt | hgt <;> omega

/-- CJK ideographs are not Latin letters. -/
theorem isLatinLetter_of_cjk {c : Char} (h : isCJK c = true) :
    isLatinLetter c = false := by
  obtain ⟨h1, _⟩ := isCJK_range h
  rw [isLatinLetter, decide_eq_false_iff_not]
  omega

/-- Lowercasing leaves CJK ideographs unchanged. -/
theorem lowerChar_of_cjk {c : Char} (h : isCJK c = true) : lowerChar c = c := by
  obtain ⟨h1, _⟩ := isCJK_range h
  rw [lowerChar, if_neg (by omega)]

/-- Normalization is the identity on purely-CJK character lists. -/
theorem clean_id {l : List Char} (hl : ∀ c ∈ l, isCJK c = true) :
    (l.filter (fun c => !isPunct c)).map lowerChar = l := by
  induction l with
  | nil => rfl
  | cons a t ih =>
    have ha := hl a (List.mem_cons_self a t)
    have hcond : (!isPunct a) = true := by rw [isPunct_of_cjk ha]; rfl
    rw [List.filter_cons, if_pos hcond, List.map_cons, lowerChar_of_cjk ha,
      ih (fun c hc => hl c (List.mem_cons_of_mem a hc))]

/-- Removing Latin letters and whitespace is the identity on purely-CJK
character lists. -/
theorem chinese_filter_id {l : List Char} (hl : ∀ c ∈ l, isCJK c = true) :
    l.filter (fun c => !(isLatinLetter c || isSpaceChar c)) = l := by
  induction l with
  | nil => rfl
  | cons a t ih =>
    have ha := hl a (List.mem_cons_self a t)
    have hcond : (!(isLatinLetter a || isSpaceChar a)) = true := by
      rw [isLatinLetter_of_cjk ha, isSpaceChar_of_cjk ha]; rfl
    rw [List.filter_cons, if_pos hcond,
      ih (fun c hc => hl c (List.mem_cons_of_mem a hc))]

/-- A purely-CJK character list contains no Latin-letter runs. -/
theorem latinRuns_eq_nil {l : List Char} (hl : ∀ c ∈ l, isCJK c = true) :
    latinRuns l = [] :=
  runsAux_eq_nil _ _ (fun c hc => isLatinLetter_of_cjk (hl c hc))

/-- Claim C7: no stopword ever appears in the tokenizer's output: both the
English pass and the bigram pass filter against the stopword set before
emission. -/
theorem stopword_exclusion (text t : String) (ht : t ∈ preprocess_text text) :
    t ∉ STOPWORDS := by
  by_cases hs : text.data.all isSpaceChar = true
  · rw [preprocess_text, if_pos hs] at ht
    cases ht
  · have hs' : text.data.all isSpaceChar = false := by
      revert hs; cases text.data.all isSpaceChar <;> simp
    rw [preprocess_eq text hs'] at ht
    rcases List.mem_append.mp ht with he | hb
    · obtain ⟨w, hw, hwt⟩ := List.mem_map.mp he
      obtain ⟨_, hcond⟩ := List.mem_filter.mp hw
      rw [Bool.and_eq_true] at hcond
      have h2 := hcond.2
      rw [decide_eq_true_eq] at h2
      rw [← hwt]
      exact h2
    · obtain ⟨_, _, _, _, _, hns⟩ := mem_bigrams hb
      exact hns

/-- Witness for C7: the token 中文 of input 中文 is not a stopword. -/
theorem stopword_exclusion_witness :
    ("中文" : String) ∈ preprocess_text "中文" ∧ ("中文" : String) ∉ STOPWORDS :=
  ⟨by decide, stopword_exclusion "中文" "中文" (by decide)⟩

/-- Counterexample for C1 as stated: on input 中x文 the two CJK ideographs
are separated by the Latin letter x, yet the tokenizer emits the bigram
中文 pairing them across the boundary, because Latin letters are deleted
before bigram extraction. -/
theorem cross_boundary_pairing_cx :
    preprocess_text "中x文" = ["中文"] ∧
    ("中x文" : String).data = ['中', 'x', '文'] ∧
    isLatinLetter 'x' = true ∧ isCJK '中' = true ∧ isCJK '文' = true :=
  ⟨by decide, by decide, by decide, by decide, by decide⟩

/-- Claim C1 as amended: every emitted token is either an all-Latin
English token or a two-character bigram of CJK ideographs (so every bigram
pairs two CJK ideographs), and the mixed-script example tokenizes exactly
to the English tokens followed by the bigrams of its single contiguous CJK
run, including "python" and 编程 — though CJK characters separated only by
Latin letters would be paired after those letters are stripped. -/
theorem token_shape_and_mixed_script :
    (∀ (text t : String), t ∈ preprocess_text text →
      (∀ c ∈ t.data, isLatinLetter c = true) ∨
      (∃ c1 c2, t.data = [c1, c2] ∧ isCJK c1 = true ∧ isCJK c2 = true)) ∧
    preprocess_text mixedExample =
      ["python", "verypopular", "是一", "一种", "种编", "编程", "程语", "语言"] ∧
    "python" ∈ preprocess_text mixedExample ∧
    "编程" ∈ preprocess_text mixedExample := by
  refine ⟨?_, by decide, by decide, by decide⟩
  intro text t ht
  by_cases hs : text.data.all isSpaceChar = true
  · rw [preprocess_text, if_pos hs] at ht
    cases ht
  · have hs' : text.data.all isSpaceChar = false := by
      revert hs; cases text.data.all isSpaceChar <;> simp
    rw [preprocess_eq text hs'] at ht
    rcases List.mem_append.mp ht with he | hb
    · left
      obtain ⟨w, hw, hwt⟩ := List.mem_map.mp he
      obtain ⟨hrun, _⟩ := List.mem_filter.mp hw
      intro c hc
      rw [← hwt] at hc
      exact runsAux_all isLatinLetter _ [] (by simp) w hrun c hc
    · right
      obtain ⟨c1, c2, ht2, h1, h2, _⟩ := mem_bigrams hb
      exact ⟨c1, c2, by rw [ht2], h1, h2⟩

/-- Witness for C1's amended theorem at the bigram 编程 of the
mixed-script example. -/
theorem token_shape_witness :
    (∀ c ∈ ("编程" : String).data, isLatinLetter c = true) ∨
    (∃ c1 c2, ("编程" : String).data = [c1, c2] ∧
      isCJK c1 = true ∧ isCJK c2 = true) :=
  token_shape_and_mixed_script.1 mixedExample "编程" (by decide)

/-- Claim C6: a purely-CJK input of length n with at least two characters
and no stopword among its adjacent pairs tokenizes to exactly the n − 1
overlapping bigrams of the sliding window. -/
theorem pure_cjk_bigram_count (s : String)
    (hcjk : ∀ c ∈ s.data, isCJK c = true)
    (hlen : 2 ≤ s.data.length)
    (hstop : ∀ p ∈ s.data.zip s.data.tail, String.mk [p.1, p.2] ∉ STOPWORDS) :
    (preprocess_text s).length = s.data.length - 1 := by
  obtain ⟨c0, hc0⟩ : ∃ c, c ∈ s.data := by
    cases hd : s.data with
    | nil => rw [hd] at hlen; simp at hlen
    | cons a t => exact ⟨a, List.mem_cons_self a t⟩
  have hall : s.data.all isSpaceChar = false := by
    by_contra hcon
    have htrue : s.data.all isSpaceChar = true := by
      revert hcon; cases s.data.all isSpaceChar <;> simp
    have hsp := List.all_eq_true.mp htrue c0 hc0
    rw [isSpaceChar_of_cjk (hcjk c0 hc0)] at hsp
    cases hsp
  rw [preprocess_eq s hall, clean_id hcjk, latinRuns_eq_nil hcjk,
    chinese_filter_id hcjk, List.filter_nil, List.map_nil, List.nil_append,
    bigrams]
  have hfil : ((s.data.zip s.data.tail).filter
      (fun p => isCJK p.1 && isCJK p.2 &&
        decide (String.mk [p.1, p.2] ∉ STOPWORDS)))
      = s.data.zip s.data.tail := by
    apply List.filter_eq_self.mpr
    rintro ⟨a, b⟩ hp
    obtain ⟨ha, hb⟩ := List.of_mem_zip hp
    simp only [Bool.and_eq_true, decide_eq_true_eq]
    exact ⟨⟨hcjk a ha, hcjk b (List.mem_of_mem_tail hb)⟩, hstop (a, b) hp⟩
  rw [hfil, List.length_map, List.length_zip, List.length_tail]
  omega

/-- Witness for C6 on the four-character input 编程语言. -/
theorem pure_cjk_bigram_count_witness :
    (preprocess_text "编程语言").length = ("编程语言" : String).data.length - 1 ∧
    ("编程语言" : String).data.length - 1 = 3 :=
  ⟨pure_cjk_bigram_count "编程语言" (by decide) (by decide) (by decide), by decide⟩

end PaperTest
